import Mathlib

/-!
# Verification of the logknife core (src/logknife.c)

A shallow embedding of the algorithmic core of `logknife.c`:

* the built-in minimal regex matcher (`matchstar`, `matchhere`,
  `matchre_builtin`, lines 37–60),
* trailing-newline stripping and the line filter (`rstrip_newlines`,
  `should_print`, lines 101–104 and 450–469),
* the backward block scan of the tail locator (`tail_last_lines`,
  lines 480–524),
* the effective-tail derivation and one poll cycle of the follow loop
  (`cmd_follow`, lines 559–600).

C strings are modelled as `List Char` (a C string cannot contain `'\0'`,
so the terminator becomes the end of the list).  File contents are a
`List Char` of bytes; `fread`/`fgets` are modelled as reliable reads of
the in-memory contents.  The `double` rate used by the since→tail
conversion is modelled as a rational number; the claims instantiate it
only at values that binary floating point represents exactly.
-/

namespace Logknife

/-! ## Built-in minimal regex (logknife.c lines 37–60)

```
static int matchstar(int c, const char *re, const char *text) {
  const char *t = text;
  do {
    if (matchhere(re, t)) return 1;
  } while (*t != '\0' && (*t++ == c || c == '.'));
  return 0;
}

static int matchhere(const char *re, const char *text) {
  if (re[0] == '\0') return 1;
  if (re[0] == '$' && re[1] == '\0') return *text == '\0';
  if (re[1] == '*') return matchstar(re[0], re + 2, text);
  if (*text != '\0' && (re[0] == '.' || re[0] == *text))
    return matchhere(re + 1, text + 1);
  return 0;
}

static int matchre_builtin(const char *re, const char *text) {
  if (re[0] == '^') return matchhere(re + 1, text);
  do {
    if (matchhere(re, text)) return 1;
  } while (*text++ != '\0');
  return 0;
}
```
-/

mutual
/-- `matchstar` of logknife.c: greedy-star backtracking loop.  The C
`do`/`while` first tries `matchhere(re, t)` at the current position,
then advances one character while it matches the starred atom. -/
def matchstar (c : Char) (re : List Char) (text : List Char) : Bool :=
  if matchhere re text then true
  else
    match text with
    | [] => false
    | t :: ts => if t = c ∨ c = '.' then matchstar c re ts else false
termination_by (re.length + 1, text.length)

/-- `matchhere` of logknife.c: match `re` against the beginning of
`text`, clause for clause as in the C source. -/
def matchhere : (re : List Char) → (text : List Char) → Bool
  | [], _ => true
  | ['$'], text => decide (text = [])
  | c :: '*' :: re, text => matchstar c re text
  | c :: re, t :: text => if c = '.' ∨ c = t then matchhere re text else false
  | _ :: _, [] => false
termination_by re text => (re.length, text.length)
end

/-- The `do { … } while (*text++ != '\0')` search loop of
`matchre_builtin`: try `matchhere` at every suffix of `text`,
including the empty one. -/
def matchsearch (re text : List Char) : Bool :=
  if matchhere re text then true
  else
    match text with
    | [] => false
    | _ :: ts => matchsearch re ts
termination_by text.length

/-- `matchre_builtin` of logknife.c: `^` anchors to the start,
otherwise unanchored search. -/
def matchre_builtin (re text : List Char) : Bool :=
  match re with
  | '^' :: rest => matchhere rest text
  | _ => matchsearch re text

/-- `re_match` of logknife.c (built-in backend, lines 425–427):
`re_compile` just stores the pattern string, so matching a compiled
pattern is `matchre_builtin` on the pattern text. -/
def re_match (pat text : List Char) : Bool :=
  matchre_builtin pat text

/-! ## Line stripping and the line filter (lines 101–104, 450–469) -/

/-- `rstrip_newlines` of logknife.c: remove all trailing `'\n'` and
`'\r'` characters (the C loop truncates from the end while the last
character is one of the two). -/
def rstrip_newlines (s : List Char) : List Char :=
  (s.reverse.dropWhile fun c => c = '\n' || c = '\r').reverse

/-- `should_print` of logknife.c: strip the line, then require
(no include patterns, or some include pattern matches) and that no
exclude pattern matches.  `strdup` failure (OOM) is not modelled. -/
def should_print (includes excludes : List (List Char)) (line : List Char) : Bool :=
  let tmp := rstrip_newlines line
  (includes.isEmpty || includes.any fun p => re_match p tmp) &&
  !(excludes.any fun p => re_match p tmp)

/-! ## Tail locator (`tail_last_lines`, lines 480–524)

```
const size_t block = 4096;
int64_t end = file_size(fp);
int64_t pos = end;  long found = 0;
while (pos > 0 && found <= n) {
  size_t to_read = block;
  if (pos < (int64_t)block) to_read = (size_t)pos;
  pos -= (int64_t)to_read;
  fseek(fp, (long)pos, SEEK_SET);
  size_t got = fread(buf, 1, to_read, fp);
  for (size_t i = got; i > 0; i--) {
    if (buf[i - 1] == '\n') {
      found++;
      if (found > n) { pos += (int64_t)i; goto done; }
    }
  }
}
pos = 0;
done: …
```
-/

/-- The fixed block size of the backward scan. -/
def blockSize : Nat := 4096

/-- The inner `for (i = got; i > 0; i--)` loop of `tail_last_lines`:
scan `buf` from index `i` down to `1`, counting newline bytes.
Returns `Sum.inr i` for the `goto done` exit (the 1-based index just
after the newline that made `found` exceed `n`), or `Sum.inl found`
with the updated count when the block is exhausted. -/
def scan_block (buf : List Char) : Nat → Nat → Nat → Nat ⊕ Nat
  | 0, found, _ => Sum.inl found
  | i + 1, found, n =>
    if buf.getD i ' ' = '\n' then
      if n < found + 1 then Sum.inr (i + 1)
      else scan_block buf i (found + 1) n
    else scan_block buf i found n

/-- The outer `while (pos > 0 && found <= n)` loop of
`tail_last_lines`, returning the byte offset left in `pos` at the
`done:` label.  `fread` is modelled as an exact read of
`content[pos - to_read, pos)`. -/
def tail_scan_loop (content : List Char) (n : Nat) (pos found : Nat) : Nat :=
  if 0 < pos ∧ found ≤ n then
    let to_read := min blockSize pos
    let pos' := pos - to_read
    let buf := (content.drop pos').take to_read
    match scan_block buf buf.length found n with
    | Sum.inl found' => tail_scan_loop content n pos' found'
    | Sum.inr i => pos' + i
  else 0
termination_by pos
decreasing_by simp only [blockSize]; omega

/-- The byte offset computed by `tail_last_lines` for a file whose
bytes are `content` and a requested trailing-line count `n`: the
backward block scan started at `end = file_size(fp)` with
`found = 0`. -/
def tail_last_lines_offset (content : List Char) (n : Nat) : Nat :=
  tail_scan_loop content n content.length 0

/-! ## Effective tail derivation (`cmd_follow`, lines 560–565)

```
long tail = o->tail_lines;
if (tail <= 0 && o->since_seconds > 0) {
  tail = (long)(o->since_seconds * o->since_rate_lps);
  if (tail < 1) tail = 1;
  if (tail > 100000) tail = 100000;
}
```
-/

/-- The C cast `(long)(double)`: truncation toward zero, on the
rational model of the `double` value. -/
def longOfRat (q : ℚ) : Int :=
  if 0 ≤ q then ⌊q⌋ else ⌈q⌉

/-- The effective tail count computed at the top of `cmd_follow`.
`since_rate_lps` (a C `double`) is modelled as a rational. -/
def effective_tail (tail_lines since_seconds : Int) (since_rate_lps : ℚ) : Int :=
  if tail_lines ≤ 0 ∧ 0 < since_seconds then
    let t := longOfRat ((since_seconds : ℚ) * since_rate_lps)
    let t := if t < 1 then 1 else t
    if 100000 < t then 100000 else t
  else tail_lines

/-! ## One poll cycle of the follow loop (`cmd_follow`, lines 577–600)

```
for (;;) {
  int c = fgetc(fp);
  if (c == EOF) {
    clearerr(fp);
    int64_t sz = file_size(fp);
    if (sz >= 0 && last_size >= 0 && sz < last_size) fseek(fp, 0, SEEK_SET);
    last_size = sz;
    sleep_ms(o->interval_ms);
    continue;
  }
  ungetc(c, fp);
  if (!fgets(buf, (int)sizeof(buf), fp)) continue;
  …print…
}
```
-/

/-- The follow cursor: the stream position of `fp` and the
`last_size` variable of `cmd_follow`.  Sizes are `Nat`: `file_size`
failures (negative returns) are not modelled — `fstat` on the open
handle is taken to be reliable. -/
structure FollowCursor where
  offset : Nat
  last_size : Nat
deriving Repr, DecidableEq

/-- Characters up to and including the first `'\n'` (all of the list
if it has none): the stopping rule of `fgets`. -/
def take_line : List Char → List Char
  | [] => []
  | c :: cs => if c = '\n' then [c] else c :: take_line cs

/-- `fgets(buf, 8192, fp)` reads at most 8191 characters. -/
def fgets_cap : Nat := 8191

/-- One iteration of the `for (;;)` poll loop of `cmd_follow`, given
the current file contents.  `fgetc` hits EOF iff the offset is at or
past the end; in that case the truncation check runs and `last_size`
is updated.  Otherwise one line is read (advancing the offset) and
returned for filtering/printing.  The `sleep_ms` call has no effect
on the cursor and is not modelled. -/
def follow_step (content : List Char) (s : FollowCursor) :
    FollowCursor × Option (List Char) :=
  if s.offset < content.length then
    let line := (take_line (content.drop s.offset)).take fgets_cap
    ({ offset := s.offset + line.length, last_size := s.last_size }, some line)
  else
    let sz := content.length
    ({ offset := if sz < s.last_size then 0 else s.offset, last_size := sz },
     none)

/-! ## Fuel-instrumented matcher

`matchstarF`/`matchhereF`/`matchreF` run the same mutual recursion as
the C matcher but consume one unit of fuel per call, returning `none`
when fuel runs out.  They make the termination of the C call graph a
provable statement: a concrete fuel bound always suffices. -/

mutual
/-- Fuel-counting version of `matchstar`. -/
def matchstarF : Nat → Char → List Char → List Char → Option Bool
  | 0, _, _, _ => none
  | f + 1, c, re, text =>
    match matchhereF f re text with
    | none => none
    | some true => some true
    | some false =>
      match text with
      | [] => some false
      | t :: ts => if t = c ∨ c = '.' then matchstarF f c re ts else some false

/-- Fuel-counting version of `matchhere`. -/
def matchhereF : Nat → List Char → List Char → Option Bool
  | 0, _, _ => none
  | f + 1, re, text =>
    match re, text with
    | [], _ => some true
    | ['$'], t => some (decide (t = []))
    | c :: '*' :: re', t => matchstarF f c re' t
    | c :: re', t :: ts =>
      if c = '.' ∨ c = t then matchhereF f re' ts else some false
    | _ :: _, [] => some false
end

/-- Fuel-counting version of the `matchsearch` loop. -/
def matchsearchF : Nat → List Char → List Char → Option Bool
  | 0, _, _ => none
  | f + 1, re, text =>
    match matchhereF f re text with
    | none => none
    | some true => some true
    | some false =>
      match text with
      | [] => some false
      | _ :: ts => matchsearchF f re ts

/-- Fuel-counting version of `matchre_builtin`. -/
def matchreF : Nat → List Char → List Char → Option Bool
  | 0, _, _ => none
  | f + 1, '^' :: rest, text => matchhereF f rest text
  | f + 1, re, text => matchsearchF (f + 1) re text

/-! ## Specification-side vocabulary -/

/-- A pattern with none of the metacharacters of the built-in
matcher. -/
def Literal (p : List Char) : Prop :=
  ∀ c ∈ p, c ≠ '*' ∧ c ≠ '.' ∧ c ≠ '^' ∧ c ≠ '$'

instance (p : List Char) : Decidable (Literal p) := by
  unfold Literal; infer_instance

/-- The backward character scan, phrased on the reversed contents:
walk the reversed file, counting newlines; as soon as the count
exceeds `n`, return `Sum.inr` of the byte offset just after that
newline in the un-reversed file (`cs.length + 1` is exactly that
offset); if the list is exhausted, return `Sum.inl` of the final
count. -/
def revscan : List Char → Nat → Nat → Nat ⊕ Nat
  | [], found, _ => Sum.inl found
  | c :: cs, found, n =>
    if c = '\n' then
      if n < found + 1 then Sum.inr (cs.length + 1)
      else revscan cs (found + 1) n
    else revscan cs found n

/-- Total byte length of a list of lines once each is terminated by a
newline. -/
def tlen (ls : List (List Char)) : Nat :=
  (ls.map fun l => l.length + 1).sum

/-! ## Equation lemmas for the matcher -/

lemma matchhere_nil (t : List Char) : matchhere [] t = true := by rw [matchhere]

lemma matchhere_dollar (t : List Char) : matchhere ['$'] t = decide (t = []) := by
  rw [matchhere]

lemma matchhere_star (c : Char) (re t : List Char) :
    matchhere (c :: '*' :: re) t = matchstar c re t := by rw [matchhere]

lemma matchhere_cons_cons (c x : Char) (re ts : List Char)
    (h1 : ¬(c = '$' ∧ re = [])) (h2 : re.head? ≠ some '*') :
    matchhere (c :: re) (x :: ts) =
      if c = '.' ∨ c = x then matchhere re ts else false := by
  rw [matchhere.eq_def]
  split <;> simp_all

lemma matchhere_cons_nil (c : Char) (re : List Char)
    (h1 : ¬(c = '$' ∧ re = [])) (h2 : re.head? ≠ some '*') :
    matchhere (c :: re) [] = false := by
  rw [matchhere.eq_def]
  split <;> simp_all

/-- One step of the `matchstar` loop: try the rest of the pattern with
zero repetitions consumed; on failure consume one matching character
and retry. -/
lemma matchstar_unfold (c : Char) (re text : List Char) :
    matchstar c re text =
      (matchhere re text ||
        match text with
        | [] => false
        | t :: ts => if t = c ∨ c = '.' then matchstar c re ts else false) := by
  rw [matchstar.eq_def]
  by_cases h : matchhere re text <;> simp [h]

lemma matchsearch_unfold (re text : List Char) :
    matchsearch re text =
      (matchhere re text ||
        match text with
        | [] => false
        | _ :: ts => matchsearch re ts) := by
  rw [matchsearch.eq_def]
  by_cases h : matchhere re text <;> simp [h]

lemma matchre_builtin_anchor (rest text : List Char) :
    matchre_builtin ('^' :: rest) text = matchhere rest text := rfl

lemma matchre_builtin_not_anchor (re text : List Char) (h : re.head? ≠ some '^') :
    matchre_builtin re text = matchsearch re text := by
  rcases re with _ | ⟨c, rest⟩
  · rfl
  · rw [matchre_builtin.eq_def]
    split <;> simp_all

/-! ## Equation lemmas for the fuel-instrumented matcher -/

lemma matchhereF_nil (f : Nat) (t : List Char) :
    matchhereF (f + 1) [] t = some true := by cases t <;> rfl

lemma matchhereF_dollar (f : Nat) (t : List Char) :
    matchhereF (f + 1) ['$'] t = some (decide (t = [])) := by cases t <;> rfl

lemma matchhereF_star (f : Nat) (c : Char) (re t : List Char) :
    matchhereF (f + 1) (c :: '*' :: re) t = matchstarF f c re t := by
  rw [matchhereF.eq_def]
  split <;> simp_all

lemma matchhereF_cons_cons (f : Nat) (c x : Char) (re ts : List Char)
    (h1 : ¬(c = '$' ∧ re = [])) (h2 : re.head? ≠ some '*') :
    matchhereF (f + 1) (c :: re) (x :: ts) =
      if c = '.' ∨ c = x then matchhereF f re ts else some false := by
  rw [matchhereF.eq_def]
  split
  · simp_all
  · split <;> simp_all

lemma matchhereF_cons_nil (f : Nat) (c : Char) (re : List Char)
    (h1 : ¬(c = '$' ∧ re = [])) (h2 : re.head? ≠ some '*') :
    matchhereF (f + 1) (c :: re) [] = some false := by
  rw [matchhereF.eq_def]
  split
  · simp_all
  · split <;> simp_all

lemma matchstarF_succ (f : Nat) (c : Char) (re text : List Char) :
    matchstarF (f + 1) c re text =
      (match matchhereF f re text with
      | none => none
      | some true => some true
      | some false =>
        match text with
        | [] => some false
        | t :: ts => if t = c ∨ c = '.' then matchstarF f c re ts else some false) := by
  cases text <;> rfl

lemma matchsearchF_succ (f : Nat) (re text : List Char) :
    matchsearchF (f + 1) re text =
      (match matchhereF f re text with
      | none => none
      | some true => some true
      | some false =>
        match text with
        | [] => some false
        | _ :: ts => matchsearchF f re ts) := by
  cases text <;> rfl

lemma matchreF_anchor (f : Nat) (rest text : List Char) :
    matchreF (f + 1) ('^' :: rest) text = matchhereF f rest text := rfl

lemma matchreF_not_anchor (f : Nat) (re text : List Char)
    (h : re.head? ≠ some '^') :
    matchreF (f + 1) re text = matchsearchF (f + 1) re text := by
  rcases re with _ | ⟨c, rest⟩
  · rfl
  · rw [matchreF.eq_def]
    split <;> simp_all

/-! ## Fuel soundness: the C recursion terminates within explicit bounds -/

lemma fuel_drop {x y f : Nat} (e : x + y ≤ f + 1) (hy : 1 ≤ y) : x ≤ f := by
  omega

/-- Joint fuel bound for the mutual `matchhere`/`matchstar` recursion:
`(|re| + 1)·(|text| + 2)` fuel suffices for `matchhere`, and
`(|re| + 2)·(|text| + 2)` for `matchstar`. -/
lemma matchF_sound (f : Nat) :
    (∀ re text : List Char, (re.length + 1) * (text.length + 2) ≤ f →
      matchhereF f re text = some (matchhere re text)) ∧
    (∀ (c : Char) (re text : List Char),
      (re.length + 2) * (text.length + 2) ≤ f →
      matchstarF f c re text = some (matchstar c re text)) := by
  induction f with
  | zero =>
    constructor
    · intro re text h
      have : 0 < (re.length + 1) * (text.length + 2) :=
        Nat.mul_pos (by omega) (by omega)
      omega
    · intro c re text h
      have : 0 < (re.length + 2) * (text.length + 2) :=
        Nat.mul_pos (by omega) (by omega)
      omega
  | succ f ih =>
    obtain ⟨ihh, ihs⟩ := ih
    constructor
    · intro re text h
      rcases re with _ | ⟨c, re'⟩
      · rw [matchhereF_nil, matchhere_nil]
      · rcases re' with _ | ⟨r2, rs⟩
        · by_cases hc : c = '$'
          · subst hc; rw [matchhereF_dollar, matchhere_dollar]
          · rcases text with _ | ⟨x, ts⟩
            · rw [matchhereF_cons_nil f c [] (by simp [hc]) (by simp),
                  matchhere_cons_nil c [] (by simp [hc]) (by simp)]
            · rw [matchhereF_cons_cons f c x [] ts (by simp [hc]) (by simp),
                  matchhere_cons_cons c x [] ts (by simp [hc]) (by simp)]
              split_ifs
              · refine ihh [] ts ?_
                simp only [List.length_cons, List.length_nil] at h ⊢
                omega
              · rfl
        · by_cases hr : r2 = '*'
          · subst hr
            rw [matchhereF_star, matchhere_star]
            refine ihs c rs text ?_
            simp only [List.length_cons] at h
            have e : (rs.length + 2) * (text.length + 2) + (text.length + 2)
                = (rs.length + 1 + 1 + 1) * (text.length + 2) := by ring
            have h' : (rs.length + 2) * (text.length + 2) + (text.length + 2)
                ≤ f + 1 := by rw [e]; exact h
            exact fuel_drop h' (by omega)
          · rcases text with _ | ⟨x, ts⟩
            · rw [matchhereF_cons_nil f c (r2 :: rs) (by simp) (by simp [hr]),
                  matchhere_cons_nil c (r2 :: rs) (by simp) (by simp [hr])]
            · rw [matchhereF_cons_cons f c x (r2 :: rs) ts (by simp) (by simp [hr]),
                  matchhere_cons_cons c x (r2 :: rs) ts (by simp) (by simp [hr])]
              split_ifs
              · refine ihh (r2 :: rs) ts ?_
                simp only [List.length_cons] at h ⊢
                have e : (rs.length + 1 + 1) * (ts.length + 2)
                      + (rs.length + ts.length + 5)
                    = (rs.length + 1 + 1 + 1) * (ts.length + 1 + 2) := by ring
                have h' : (rs.length + 1 + 1) * (ts.length + 2)
                      + (rs.length + ts.length + 5) ≤ f + 1 := by rw [e]; exact h
                exact fuel_drop h' (by omega)
              · rfl
    · intro c re text h
      rw [matchstarF_succ, matchstar_unfold]
      have hh : matchhereF f re text = some (matchhere re text) := by
        refine ihh re text ?_
        have e : (re.length + 1) * (text.length + 2) + (text.length + 2)
            = (re.length + 2) * (text.length + 2) := by ring
        have h' : (re.length + 1) * (text.length + 2) + (text.length + 2)
            ≤ f + 1 := by rw [e]; exact h
        exact fuel_drop h' (by omega)
      rw [hh]
      cases hmh : matchhere re text
      · simp only [Bool.false_or]
        rcases text with _ | ⟨t, ts⟩
        · rfl
        · dsimp only
          split_ifs
          · refine ihs c re ts ?_
            simp only [List.length_cons] at h
            have e : (re.length + 2) * (ts.length + 2) + (re.length + 2)
                = (re.length + 2) * (ts.length + 1 + 2) := by ring
            have h' : (re.length + 2) * (ts.length + 2) + (re.length + 2)
                ≤ f + 1 := by rw [e]; exact h
            exact fuel_drop h' (by omega)
          · rfl
      · simp

/-- Fuel bound for the unanchored search loop. -/
lemma matchsearchF_sound (text : List Char) :
    ∀ (f : Nat) (re : List Char),
      (re.length + 1) * (text.length + 2) + text.length + 1 ≤ f →
      matchsearchF f re text = some (matchsearch re text) := by
  induction text with
  | nil =>
    intro f re h
    have hf : 0 < f := by
      have : 0 < (re.length + 1) * (0 + 2) := Nat.mul_pos (by omega) (by omega)
      simp only [List.length_nil] at h
      omega
    obtain ⟨f', rfl⟩ : ∃ f', f = f' + 1 := ⟨f - 1, by omega⟩
    rw [matchsearchF_succ, matchsearch_unfold]
    have hh : matchhereF f' re [] = some (matchhere re []) := by
      refine (matchF_sound f').1 re [] ?_
      simp only [List.length_nil] at h ⊢
      omega
    rw [hh]
    cases matchhere re [] <;> simp
  | cons t ts ih =>
    intro f re h
    have hf : 0 < f := by
      have : 0 < (re.length + 1) * (ts.length + 1 + 2) :=
        Nat.mul_pos (by omega) (by omega)
      simp only [List.length_cons] at h
      omega
    obtain ⟨f', rfl⟩ : ∃ f', f = f' + 1 := ⟨f - 1, by omega⟩
    rw [matchsearchF_succ, matchsearch_unfold]
    have hh : matchhereF f' re (t :: ts) = some (matchhere re (t :: ts)) := by
      refine (matchF_sound f').1 re (t :: ts) ?_
      simp only [List.length_cons] at h ⊢
      omega
    rw [hh]
    cases matchhere re (t :: ts)
    · simp only [Bool.false_or]
      refine ih f' re ?_
      simp only [List.length_cons] at h
      have e : ((re.length + 1) * (ts.length + 2) + ts.length + 1)
            + (re.length + 2)
          = (re.length + 1) * (ts.length + 1 + 2) + (ts.length + 1) + 1 := by
        ring
      have h' : ((re.length + 1) * (ts.length + 2) + ts.length + 1)
            + (re.length + 2) ≤ f' + 1 := by rw [e]; exact h
      exact fuel_drop h' (by omega)
    · simp

/-- Fuel bound for `matchre_builtin`. -/
lemma matchreF_sound (f : Nat) (re text : List Char)
    (h : (re.length + 1) * (text.length + 2) + text.length + 2 ≤ f) :
    matchreF f re text = some (matchre_builtin re text) := by
  have hf : 0 < f := by omega
  obtain ⟨f', rfl⟩ : ∃ f', f = f' + 1 := ⟨f - 1, by omega⟩
  by_cases ha : re.head? = some '^'
  · rcases re with _ | ⟨c, rest⟩
    · simp at ha
    · have hc : c = '^' := by simpa using ha
      subst hc
      rw [matchreF_anchor, matchre_builtin_anchor]
      refine (matchF_sound f').1 rest text ?_
      simp only [List.length_cons] at h
      have e : (rest.length + 1) * (text.length + 2) + (2 * text.length + 4)
          = (rest.length + 1 + 1) * (text.length + 2) + text.length + 2 := by
        ring
      have h' : (rest.length + 1) * (text.length + 2) + (2 * text.length + 4)
          ≤ f' + 1 := by rw [e]; exact h
      exact fuel_drop h' (by omega)
  · rw [matchreF_not_anchor f' re text ha, matchre_builtin_not_anchor re text ha]
    refine matchsearchF_sound text (f' + 1) re ?_
    omega

/-! ## Literal patterns, anchors and the unanchored search -/

/-- A literal pattern matches at a position iff it is a prefix of the
remaining text. -/
lemma matchhere_literal : ∀ (p : List Char), Literal p →
    ∀ t, (matchhere p t = true ↔ p <+: t) := by
  intro p
  induction p with
  | nil =>
    intro _ t
    rw [matchhere_nil]
    simp
  | cons c p' ih =>
    intro hp t
    have hc : c ≠ '*' ∧ c ≠ '.' ∧ c ≠ '^' ∧ c ≠ '$' := hp c (by simp)
    have hp' : Literal p' := fun x hx => hp x (by simp [hx])
    have hhead : p'.head? ≠ some '*' := by
      rcases p' with _ | ⟨r2, rs⟩
      · simp
      · have := (hp' r2 (by simp)).1
        simp [this]
    have h1 : ¬(c = '$' ∧ p' = []) := by simp [hc.2.2.2]
    rcases t with _ | ⟨x, ts⟩
    · rw [matchhere_cons_nil c p' h1 hhead]
      simp
    · rw [matchhere_cons_cons c x p' ts h1 hhead]
      by_cases hcx : c = x
      · subst hcx
        rw [if_pos (Or.inr rfl), ih hp' ts]
        simp [List.cons_prefix_cons]
      · rw [if_neg (by simp [hc.2.1, hcx])]
        simp [List.cons_prefix_cons, hcx]

/-- The search loop succeeds iff the pattern matches at some suffix of
the text. -/
lemma matchsearch_iff (re : List Char) :
    ∀ t, (matchsearch re t = true ↔ ∃ s, s <:+ t ∧ matchhere re s = true) := by
  intro t
  induction t with
  | nil =>
    rw [matchsearch_unfold]
    constructor
    · intro h
      exact ⟨[], List.suffix_refl _, by simpa using h⟩
    · rintro ⟨s, hs, hm⟩
      obtain rfl := List.suffix_nil.mp hs
      simpa using hm
  | cons x ts ih =>
    rw [matchsearch_unfold]
    simp only [Bool.or_eq_true]
    constructor
    · rintro (h | h)
      · exact ⟨x :: ts, List.suffix_refl _, h⟩
      · obtain ⟨s, hs, hm⟩ := ih.1 h
        exact ⟨s, hs.trans (List.suffix_cons x ts), hm⟩
    · rintro ⟨s, hs, hm⟩
      rcases List.suffix_cons_iff.mp hs with rfl | hs'
      · exact Or.inl hm
      · exact Or.inr (ih.2 ⟨s, hs', hm⟩)

/-- A literal pattern followed by the end anchor matches a text
position iff the remaining text is exactly the pattern. -/
lemma matchhere_append_dollar : ∀ (p : List Char), Literal p →
    ∀ t, (matchhere (p ++ ['$']) t = true ↔ t = p) := by
  intro p
  induction p with
  | nil =>
    intro _ t
    rw [List.nil_append, matchhere_dollar]
    simp
  | cons c p' ih =>
    intro hp t
    have hc : c ≠ '*' ∧ c ≠ '.' ∧ c ≠ '^' ∧ c ≠ '$' := hp c (by simp)
    have hp' : Literal p' := fun x hx => hp x (by simp [hx])
    have h1 : ¬(c = '$' ∧ p' ++ ['$'] = []) := by simp
    have hhead : (p' ++ ['$']).head? ≠ some '*' := by
      rcases p' with _ | ⟨r2, rs⟩
      · simp
      · have := (hp' r2 (by simp)).1
        simp [this]
    rcases t with _ | ⟨x, ts⟩
    · rw [List.cons_append, matchhere_cons_nil c (p' ++ ['$']) h1 hhead]
      simp
    · rw [List.cons_append, matchhere_cons_cons c x (p' ++ ['$']) ts h1 hhead]
      by_cases hcx : c = x
      · subst hcx
        rw [if_pos (Or.inr rfl), ih hp' ts]
        simp
      · rw [if_neg (by simp [hc.2.1, hcx])]
        simp only [Bool.false_eq_true, false_iff, List.cons.injEq, not_and]
        intro h
        exact absurd h.symm hcx

/-- C2 (claim theorem): for a pattern with no metacharacters, the
built-in matcher succeeds iff the pattern occurs as a contiguous
literal substring of the text (the empty pattern is a substring of
everything). -/
theorem matchre_builtin_literal (p t : List Char) (hp : Literal p) :
    matchre_builtin p t = true ↔ p <:+: t := by
  have hhead : p.head? ≠ some '^' := by
    rcases p with _ | ⟨c, rest⟩
    · simp
    · have := (hp c (by simp)).2.2.1
      simp [this]
  rw [matchre_builtin_not_anchor p t hhead, matchsearch_iff,
    List.infix_iff_prefix_suffix]
  constructor
  · rintro ⟨s, hs, hm⟩
    exact ⟨s, (matchhere_literal p hp s).1 hm, hs⟩
  · rintro ⟨s, hpre, hsuf⟩
    exact ⟨s, hsuf, (matchhere_literal p hp s).2 hpre⟩

/-- C2 witness: `"ab"` occurs in `"xab"`. -/
theorem matchre_builtin_literal_witness :
    matchre_builtin ['a', 'b'] ['x', 'a', 'b'] = true ↔
      ['a', 'b'] <:+: ['x', 'a', 'b'] :=
  matchre_builtin_literal ['a', 'b'] ['x', 'a', 'b'] (by decide)

/-- C3 (claim theorem): the greedy-star loop first tries the rest of
the pattern with zero repetitions, and on failure consumes one
character matching the starred atom and retries; consequently
`a*b` rejects `""`, accepts `"b"`, accepts `"aaab"`, rejects
`"aac"`. -/
theorem matchstar_greedy :
    (∀ (c : Char) (re text : List Char), matchstar c re text =
      (matchhere re text ||
        match text with
        | [] => false
        | t :: ts => if t = c ∨ c = '.' then matchstar c re ts else false))
    ∧ matchre_builtin ['a', '*', 'b'] [] = false
    ∧ matchre_builtin ['a', '*', 'b'] ['b'] = true
    ∧ matchre_builtin ['a', '*', 'b'] ['a', 'a', 'a', 'b'] = true
    ∧ matchre_builtin ['a', '*', 'b'] ['a', 'a', 'c'] = false := by
  refine ⟨matchstar_unfold, ?_, ?_, ?_, ?_⟩ <;>
    simp [matchre_builtin, matchsearch, matchhere, matchstar]

/-- C6 (claim theorem): a leading `^` anchors matching at the start of
the text; a trailing `$` after a literal pattern forces the match to
reach the end of the text; without a leading `^` the matcher searches
every suffix; and the three `^abc$` examples. -/
theorem matchre_builtin_anchors :
    (∀ rest t, matchre_builtin ('^' :: rest) t = matchhere rest t)
    ∧ (∀ p t, Literal p → (matchhere (p ++ ['$']) t = true ↔ t = p))
    ∧ (∀ re t, re.head? ≠ some '^' →
        (matchre_builtin re t = true ↔ ∃ s, s <:+ t ∧ matchhere re s = true))
    ∧ matchre_builtin ['^', 'a', 'b', 'c', '$'] ['a', 'b', 'c'] = true
    ∧ matchre_builtin ['^', 'a', 'b', 'c', '$'] ['a', 'b', 'c', 'd'] = false
    ∧ matchre_builtin ['^', 'a', 'b', 'c', '$'] ['x', 'a', 'b', 'c'] = false := by
  refine ⟨matchre_builtin_anchor, fun p t hp => matchhere_append_dollar p hp t,
    ?_, ?_, ?_, ?_⟩
  · intro re t h
    rw [matchre_builtin_not_anchor re t h, matchsearch_iff]
  · simp [matchre_builtin, matchsearch, matchhere, matchstar]
  · simp [matchre_builtin, matchsearch, matchhere, matchstar]
  · simp [matchre_builtin, matchsearch, matchhere, matchstar]

/-- C6 witness: the end anchor lemma applied at `p = "a"`,
`t = "a"`. -/
theorem matchre_builtin_anchors_witness :
    matchhere (['a'] ++ ['$']) ['a'] = true :=
  (matchre_builtin_anchors.2.1 ['a'] ['a'] (by decide)).2 rfl

/-- C10 (claim theorem): the mutual recursion of `matchre_builtin`,
`matchhere` and `matchstar` is total — with fuel counting one unit
per call, an explicit polynomial fuel bound always suffices to reach
the answer, for every pattern and text (including patterns with
`*`). -/
theorem matcher_terminates :
    (∀ (f : Nat) (re text : List Char),
        (re.length + 1) * (text.length + 2) ≤ f →
        matchhereF f re text = some (matchhere re text))
    ∧ (∀ (f : Nat) (c : Char) (re text : List Char),
        (re.length + 2) * (text.length + 2) ≤ f →
        matchstarF f c re text = some (matchstar c re text))
    ∧ (∀ (f : Nat) (re text : List Char),
        (re.length + 1) * (text.length + 2) + text.length + 2 ≤ f →
        matchreF f re text = some (matchre_builtin re text)) :=
  ⟨fun f => (matchF_sound f).1, fun f => (matchF_sound f).2, matchreF_sound⟩

/-- C10 witness: 100 units of fuel settle the starred pattern `"a*"`
on `"aa"`. -/
theorem matcher_terminates_witness :
    matchreF 100 ['a', '*'] ['a', 'a'] =
      some (matchre_builtin ['a', '*'] ['a', 'a']) :=
  matcher_terminates.2.2 100 ['a', '*'] ['a', 'a'] (by decide)

/-! ## Lemmas about the line filter -/

/-- Stripping trailing newlines is idempotent. -/
lemma rstrip_newlines_idem (s : List Char) :
    rstrip_newlines (rstrip_newlines s) = rstrip_newlines s := by
  unfold rstrip_newlines
  rw [List.reverse_reverse, List.dropWhile_idempotent]

/-- Unfolded admission condition of `should_print`. -/
lemma should_print_iff (includes excludes : List (List Char)) (line : List Char) :
    should_print includes excludes line = true ↔
      ((includes = [] ∨ ∃ p ∈ includes, re_match p (rstrip_newlines line) = true) ∧
       ∀ p ∈ excludes, re_match p (rstrip_newlines line) = false) := by
  simp only [should_print, Bool.and_eq_true, Bool.or_eq_true, List.isEmpty_iff,
    List.any_eq_true, Bool.not_eq_true', List.any_eq_false, Bool.not_eq_true]

/-- C4 (claim theorem): a line is admitted iff (the include list is
empty or some include pattern matches the stripped line) and no
exclude pattern matches the stripped line; in particular a line
matched by an exclude pattern is rejected even when an include
pattern also matches it. -/
theorem should_print_decision (includes excludes : List (List Char)) (line : List Char) :
    (should_print includes excludes line = true ↔
      ((includes = [] ∨ ∃ p ∈ includes, re_match p (rstrip_newlines line) = true) ∧
       ∀ p ∈ excludes, re_match p (rstrip_newlines line) = false))
    ∧ (∀ p q, p ∈ includes → q ∈ excludes →
        re_match p (rstrip_newlines line) = true →
        re_match q (rstrip_newlines line) = true →
        should_print includes excludes line = false) := by
  refine ⟨should_print_iff includes excludes line, ?_⟩
  intro p q hp hq _ hqmatch
  have hany : (excludes.any fun r => re_match r (rstrip_newlines line)) = true :=
    List.any_eq_true.2 ⟨q, hq, hqmatch⟩
  simp only [should_print, hany, Bool.not_true, Bool.and_false]

/-- C4 witness: the empty pattern matches everything, so a line both
included and excluded by it is rejected. -/
theorem should_print_decision_witness :
    should_print [([] : List Char)] [([] : List Char)] ['x'] = false :=
  (should_print_decision [([] : List Char)] [([] : List Char)] ['x']).2 [] []
    (by simp) (by simp)
    (by simp [re_match, matchre_builtin, matchsearch, matchhere, rstrip_newlines])
    (by simp [re_match, matchre_builtin, matchsearch, matchhere, rstrip_newlines])

/-- C9 (claim theorem): the admit decision is invariant under trailing
line terminators — `should_print` on a line equals `should_print` on
the line with its trailing CR/LF characters removed, because the line
is stripped before any pattern is matched. -/
theorem should_print_strip_invariant (includes excludes : List (List Char))
    (line : List Char) :
    should_print includes excludes line =
      should_print includes excludes (rstrip_newlines line) := by
  simp only [should_print, rstrip_newlines_idem]

/-! ## Effective tail derivation (C7) -/

/-- C7 (claim theorem): the effective tail request equals
`sinceSeconds × rateLinesPerSecond` (truncated to an integer) clamped
to `[1, 100000]` exactly when `tailLines ≤ 0` and `sinceSeconds > 0`;
otherwise it is `tailLines` unchanged; and `sinceSeconds = 600` with
rate `2` yields `1200`. -/
theorem effective_tail_spec :
    (∀ (tl ss : Int) (rate : ℚ), tl ≤ 0 → 0 < ss →
        effective_tail tl ss rate =
          max 1 (min 100000 (longOfRat ((ss : ℚ) * rate))))
    ∧ (∀ (tl ss : Int) (rate : ℚ), ¬(tl ≤ 0 ∧ 0 < ss) →
        effective_tail tl ss rate = tl)
    ∧ effective_tail 0 600 2 = 1200 := by
  refine ⟨?_, ?_, ?_⟩
  · intro tl ss rate h1 h2
    simp only [effective_tail, if_pos (And.intro h1 h2)]
    split_ifs <;> omega
  · intro tl ss rate h
    simp only [effective_tail, if_neg h]
  · norm_num [effective_tail, longOfRat]

/-- C7 witness: the derivation branch applied at
`tailLines = -3`, `sinceSeconds = 600`, rate `2`. -/
theorem effective_tail_spec_witness :
    effective_tail (-3) 600 2 =
      max 1 (min 100000 (longOfRat (((600 : Int) : ℚ) * 2))) :=
  effective_tail_spec.1 (-3) 600 2 (by norm_num) (by norm_num)

/-! ## Follow-loop truncation detection (C8) -/

/-- C8 (claim theorem): in a poll cycle that hits EOF, the read offset
is reset to 0 exactly when the observed size is strictly smaller than
the last-observed size, and is left unchanged otherwise. -/
theorem follow_step_truncation (content : List Char) (s : FollowCursor)
    (h : content.length ≤ s.offset) :
    (content.length < s.last_size → (follow_step content s).1.offset = 0) ∧
    (s.last_size ≤ content.length → (follow_step content s).1.offset = s.offset) := by
  constructor <;> intro h2
  · simp only [follow_step, if_neg (Nat.not_lt.2 h), if_pos h2]
  · simp only [follow_step, if_neg (Nat.not_lt.2 h), if_neg (Nat.not_lt.2 h2)]

/-- C8 witness: a shrunken file (size 1, last observed 5) resets the
offset to 0; an unshrunken file (size 1, last observed 1) leaves the
offset at 3. -/
theorem follow_step_truncation_witness :
    (follow_step ['a'] ⟨3, 5⟩).1.offset = 0 ∧
    (follow_step ['a'] ⟨3, 1⟩).1.offset = 3 :=
  ⟨(follow_step_truncation ['a'] ⟨3, 5⟩ (by decide)).1 (by decide),
   (follow_step_truncation ['a'] ⟨3, 1⟩ (by decide)).2 (by decide)⟩

/-! ## The tail locator: block scan versus backward character scan -/

/-- The inner block loop agrees with the backward character scan of
the first `i` bytes of the block. -/
lemma scan_block_eq_revscan (buf : List Char) :
    ∀ (i found n : Nat), i ≤ buf.length →
      scan_block buf i found n = revscan (buf.take i).reverse found n := by
  intro i
  induction i with
  | zero =>
    intro found n _
    simp [scan_block, revscan]
  | succ i ih =>
    intro found n hle
    have hi : i < buf.length := by omega
    have htake : (buf.take (i + 1)).reverse = buf[i] :: (buf.take i).reverse := by
      rw [List.take_succ]
      simp [List.getElem?_eq_getElem hi]
    rw [htake, scan_block, revscan]
    have hg : buf.getD i ' ' = buf[i] := List.getD_eq_getElem buf ' ' hi
    rw [hg]
    by_cases hnl : buf[i] = '\n'
    · rw [if_pos hnl, if_pos hnl]
      by_cases hend : n < found + 1
      · rw [if_pos hend, if_pos hend]
        have hlen : (buf.take i).reverse.length = i := by
          simp [Nat.le_of_lt hi]
        rw [hlen]
      · rw [if_neg hend, if_neg hend, ih (found + 1) n (Nat.le_of_lt hi)]
    · rw [if_neg hnl, if_neg hnl, ih found n (Nat.le_of_lt hi)]

/-- Splitting the backward scan at a block boundary. -/
lemma revscan_append (A B : List Char) (n : Nat) :
    ∀ found, revscan (A ++ B) found n =
      (match revscan A found n with
       | Sum.inl found' => revscan B found' n
       | Sum.inr p => Sum.inr (p + B.length)) := by
  induction A with
  | nil =>
    intro found
    simp [revscan]
  | cons c cs ih =>
    intro found
    rw [List.cons_append, revscan, revscan]
    by_cases hc : c = '\n'
    · rw [if_pos hc, if_pos hc]
      by_cases hend : n < found + 1
      · rw [if_pos hend, if_pos hend]
        simp only [List.length_append]
        congr 1
        omega
      · rw [if_neg hend, if_neg hend, ih (found + 1)]
    · rw [if_neg hc, if_neg hc, ih found]

/-- When the scan exhausts its input, the final count never exceeds
`n` if the initial count did not. -/
lemma revscan_inl_le (n : Nat) : ∀ (xs : List Char) (found found' : Nat),
    found ≤ n → revscan xs found n = Sum.inl found' → found' ≤ n := by
  intro xs
  induction xs with
  | nil =>
    intro found found' h heq
    simp only [revscan, Sum.inl.injEq] at heq
    omega
  | cons c cs ih =>
    intro found found' h heq
    rw [revscan] at heq
    by_cases hc : c = '\n'
    · rw [if_pos hc] at heq
      by_cases hend : n < found + 1
      · rw [if_pos hend] at heq
        exact absurd heq (by simp)
      · rw [if_neg hend] at heq
        exact ih (found + 1) found' (by omega) heq
    · rw [if_neg hc] at heq
      exact ih found found' h heq

/-- The outer while-loop of `tail_last_lines` computes exactly the
backward character scan of the first `pos` bytes. -/
lemma tail_scan_loop_eq_revscan (content : List Char) (n : Nat) :
    ∀ (pos found : Nat), pos ≤ content.length → found ≤ n →
      tail_scan_loop content n pos found =
        (match revscan (content.take pos).reverse found n with
         | Sum.inl _ => 0
         | Sum.inr p => p) := by
  intro pos
  induction pos using Nat.strong_induction_on with
  | _ pos ih =>
    intro found hpos hfound
    rw [tail_scan_loop]
    by_cases hp : 0 < pos
    · rw [if_pos ⟨hp, hfound⟩]
      show (match scan_block
              ((content.drop (pos - min blockSize pos)).take (min blockSize pos))
              ((content.drop (pos - min blockSize pos)).take
                (min blockSize pos)).length found n with
            | Sum.inl found' =>
                tail_scan_loop content n (pos - min blockSize pos) found'
            | Sum.inr i => pos - min blockSize pos + i) = _
      have hT1 : 1 ≤ min blockSize pos := by
        simp only [blockSize]
        omega
      have hT2 : min blockSize pos ≤ pos := Nat.min_le_right _ _
      have hsplit : content.take pos =
          content.take (pos - min blockSize pos) ++
            (content.drop (pos - min blockSize pos)).take (min blockSize pos) := by
        conv_lhs =>
          rw [show pos = pos - min blockSize pos + min blockSize pos by omega]
        exact List.take_add ..
      rw [scan_block_eq_revscan _ _ found n le_rfl, List.take_length,
        hsplit, List.reverse_append, revscan_append]
      cases hscan : revscan
          ((content.drop (pos - min blockSize pos)).take
            (min blockSize pos)).reverse found n with
      | inl found' =>
        exact ih (pos - min blockSize pos) (by omega) found' (by omega)
          (revscan_inl_le n _ found found' hfound hscan)
      | inr p =>
        simp only [List.length_reverse, List.length_take, List.length_drop]
        have hmin2 : min (pos - min blockSize pos) content.length
            = pos - min blockSize pos := Nat.min_eq_left (by omega)
        rw [hmin2]
        exact Nat.add_comm _ _
    · rw [if_neg fun h => hp h.1]
      have : pos = 0 := by omega
      subst this
      simp [revscan]

/-- The tail locator is the backward character scan of the whole
file. -/
lemma tail_last_lines_offset_eq (content : List Char) (n : Nat) :
    tail_last_lines_offset content n =
      (match revscan content.reverse 0 n with
       | Sum.inl _ => 0
       | Sum.inr p => p) := by
  rw [tail_last_lines_offset,
    tail_scan_loop_eq_revscan content n content.length 0 le_rfl (Nat.zero_le n),
    List.take_length]

/-- Scanning newline-free input finds nothing. -/
lemma revscan_no_newline : ∀ (w : List Char), '\n' ∉ w →
    ∀ found n, revscan w found n = Sum.inl found := by
  intro w
  induction w with
  | nil => intro _ found n; rfl
  | cons c cs ih =>
    intro hw found n
    have hc : ¬(c = '\n') := by
      rintro rfl
      exact hw (by simp)
    rw [revscan, if_neg hc]
    exact ih (fun h => hw (by simp [h])) found n

/-- Length of the reversed newline-led groups. -/
lemma flatten_g_length (ls : List (List Char)) :
    ((ls.map fun l => '\n' :: l.reverse).flatten).length = tlen ls := by
  induction ls with
  | nil => simp [tlen]
  | cons l rest ih =>
    simp only [List.map_cons, List.flatten_cons, List.length_append,
      List.length_cons, List.length_reverse, ih, tlen, List.map, List.sum_cons]

/-- Length of a flattened list of newline-terminated lines. -/
lemma flatten_term_length (ls : List (List Char)) :
    ((ls.map fun l => l ++ ['\n']).flatten).length = tlen ls := by
  induction ls with
  | nil => simp [tlen]
  | cons l rest ih =>
    simp only [List.map_cons, List.flatten_cons, List.length_append,
      List.length_cons, List.length_nil, ih, tlen, List.map, List.sum_cons]

/-- Reversing a file of newline-terminated lines gives the reversed
lines as newline-led groups. -/
lemma term_reverse (lines : List (List Char)) :
    ((lines.map fun l => l ++ ['\n']).flatten).reverse =
      (lines.reverse.map fun l => '\n' :: l.reverse).flatten := by
  rw [List.reverse_flatten, List.map_map]
  have hcomp : (List.reverse ∘ fun l : List Char => l ++ ['\n']) =
      fun l : List Char => '\n' :: l.reverse := by
    funext l
    simp
  rw [hcomp, ← List.map_reverse]

/-- The backward scan over newline-led groups: with `k` groups left
and `found ≤ n` newlines already seen, the scan runs out iff
`k + found ≤ n`, and otherwise stops exactly at the start of the
group whose newline made the count exceed `n`. -/
lemma revscan_groups (n : Nat) :
    ∀ (revlines : List (List Char)), (∀ l ∈ revlines, '\n' ∉ l) →
      ∀ found, found ≤ n →
        revscan ((revlines.map fun l => '\n' :: l.reverse).flatten) found n =
          (if revlines.length + found ≤ n then Sum.inl (found + revlines.length)
           else Sum.inr (tlen (revlines.drop (n - found)))) := by
  intro revlines
  induction revlines with
  | nil =>
    intro _ found hf
    simp [revscan, tlen, hf]
  | cons l rest ih =>
    intro hnl found hf
    have hl : '\n' ∉ l := hnl l (by simp)
    have hrest : ∀ l' ∈ rest, '\n' ∉ l' := fun l' h => hnl l' (by simp [h])
    rw [List.map_cons, List.flatten_cons, List.cons_append, revscan, if_pos rfl]
    by_cases hfn : n < found + 1
    · rw [if_pos hfn, if_neg (by simp; omega)]
      have hnf : n - found = 0 := by omega
      rw [hnf, List.drop_zero]
      congr 1
      simp only [List.length_append, List.length_reverse, flatten_g_length,
        tlen, List.map, List.sum_cons]
      omega
    · rw [if_neg hfn, revscan_append,
        revscan_no_newline l.reverse (by simp [hl]) (found + 1) n]
      show revscan ((rest.map fun l => '\n' :: l.reverse).flatten) (found + 1) n
          = _
      rw [ih hrest (found + 1) (by omega)]
      simp only [List.length_cons]
      by_cases hc : rest.length + 1 + found ≤ n
      · rw [if_pos (by omega), if_pos (by omega)]
        congr 1
        omega
      · rw [if_neg (by omega), if_neg (by omega)]
        congr 1
        obtain ⟨k, hk⟩ : ∃ k, n - found = k + 1 := ⟨n - found - 1, by omega⟩
        rw [hk, List.drop_succ_cons]
        have hnk : n - (found + 1) = k := by omega
        rw [hnk]

/-- The tail-locator offset on a file made of newline-terminated lines
followed by a (possibly empty) newline-free remainder. -/
lemma tail_offset_lines (lines : List (List Char)) (u : List Char) (n : Nat)
    (hl : ∀ l ∈ lines, '\n' ∉ l) (hu : '\n' ∉ u) :
    tail_last_lines_offset ((lines.map fun l => l ++ ['\n']).flatten ++ u) n =
      if lines.length ≤ n then 0 else tlen (lines.reverse.drop n) := by
  rw [tail_last_lines_offset_eq, List.reverse_append, term_reverse,
    revscan_append, revscan_no_newline u.reverse (by simp [hu]) 0 n]
  show (match revscan ((lines.reverse.map fun l => '\n' :: l.reverse).flatten)
          0 n with
        | Sum.inl _ => 0
        | Sum.inr p => p) = _
  rw [revscan_groups n lines.reverse
    (fun l h => hl l (List.mem_reverse.mp h)) 0 (Nat.zero_le n)]
  simp only [List.length_reverse, Nat.add_zero, Nat.sub_zero]
  by_cases hk : lines.length ≤ n
  · rw [if_pos hk, if_pos hk]
  · rw [if_neg hk, if_neg hk]

/-- Dropping the first `n` of the reversed lines keeps the first
`k - n` lines, and their terminated length is unchanged by
reversal. -/
lemma tlen_reverse_drop (lines : List (List Char)) (n : Nat) :
    tlen (lines.reverse.drop n) = tlen (lines.take (lines.length - n)) := by
  rw [List.drop_reverse]
  unfold tlen
  rw [List.map_reverse, List.sum_reverse]

/-- C1 (claim theorem): on a file of `k` newline-terminated lines and
any requested count `n ≥ 1`, reading forward from the returned offset
yields exactly the last `min n k` lines, in order, with no partial
first line; when `n` exceeds `k` the offset is 0. -/
theorem tail_locator_correct (lines : List (List Char)) (n : Nat)
    (h1 : 1 ≤ n) (hl : ∀ l ∈ lines, '\n' ∉ l) :
    (((lines.map fun l => l ++ ['\n']).flatten).drop
        (tail_last_lines_offset ((lines.map fun l => l ++ ['\n']).flatten) n) =
      ((lines.drop (lines.length - min n lines.length)).map
        fun l => l ++ ['\n']).flatten)
    ∧ (lines.length < n →
        tail_last_lines_offset ((lines.map fun l => l ++ ['\n']).flatten) n
          = 0) := by
  have hoff := tail_offset_lines lines [] n hl (by simp)
  rw [List.append_nil] at hoff
  constructor
  · by_cases hk : lines.length ≤ n
    · rw [hoff, if_pos hk, Nat.min_eq_right hk, Nat.sub_self, List.drop_zero,
        List.drop_zero]
    · have hn : n < lines.length := by omega
      rw [hoff, if_neg hk, Nat.min_eq_left (by omega), tlen_reverse_drop]
      have hsplit : ((lines.map fun l => l ++ ['\n']).flatten) =
          ((lines.take (lines.length - n)).map fun l => l ++ ['\n']).flatten ++
            ((lines.drop (lines.length - n)).map fun l => l ++ ['\n']).flatten := by
        conv_lhs => rw [← List.take_append_drop (lines.length - n) lines]
        rw [List.map_append, List.flatten_append]
      rw [hsplit, ← flatten_term_length (lines.take (lines.length - n)),
        List.drop_left]
  · intro hlt
    rw [hoff, if_pos (by omega)]

/-- C1 witness: three lines, tail 2. -/
theorem tail_locator_correct_witness :
    ((([['a'], ['b'], ['c']].map fun l => l ++ ['\n']).flatten).drop
        (tail_last_lines_offset
          (([['a'], ['b'], ['c']].map fun l => l ++ ['\n']).flatten) 2) =
      (([['a'], ['b'], ['c']].drop (3 - min 2 3)).map
        fun l => l ++ ['\n']).flatten) :=
  (tail_locator_correct [['a'], ['b'], ['c']] 2 (by decide) (by decide)).1

/-- C5 counterexample: the file `"a\nb\nc"` has 3 lines (counting the
final unterminated `"c"`), which is more than `n = 1`, yet reading
from the returned offset does not yield exactly the last 1 line
`"c"` — it yields `"b\nc"`. -/
theorem tail_locator_unterminated_cex :
    ¬ (['a', '\n', 'b', '\n', 'c'].drop
        (tail_last_lines_offset ['a', '\n', 'b', '\n', 'c'] 1) = ['c']) := by
  have hoff : tail_last_lines_offset ['a', '\n', 'b', '\n', 'c'] 1 = 2 := by
    rw [tail_last_lines_offset_eq]
    decide
  rw [hoff]
  decide

/-- C5 (amended claim theorem): for a file whose final line is
unterminated and which has more than `n` lines, reading forward from
the offset returned for `n ≥ 1` yields the last `n` *terminated*
lines followed by the unterminated text — that is, `n + 1` lines when
the unterminated text is counted as a line, one more than
requested. -/
theorem tail_locator_unterminated (lines : List (List Char)) (u : List Char)
    (n : Nat) (h1 : 1 ≤ n) (hl : ∀ l ∈ lines, '\n' ∉ l) (hu : '\n' ∉ u)
    (hune : u ≠ []) (hk : n ≤ lines.length) :
    ((lines.map fun l => l ++ ['\n']).flatten ++ u).drop
        (tail_last_lines_offset
          ((lines.map fun l => l ++ ['\n']).flatten ++ u) n) =
      ((lines.drop (lines.length - n)).map fun l => l ++ ['\n']).flatten
        ++ u := by
  have hoff := tail_offset_lines lines u n hl hu
  by_cases hlen : lines.length ≤ n
  · have hn : lines.length = n := by omega
    rw [hoff, if_pos hlen, List.drop_zero, hn, Nat.sub_self, List.drop_zero]
  · rw [hoff, if_neg hlen, tlen_reverse_drop]
    have hsplit : ((lines.map fun l => l ++ ['\n']).flatten ++ u) =
        ((lines.take (lines.length - n)).map fun l => l ++ ['\n']).flatten ++
          (((lines.drop (lines.length - n)).map fun l => l ++ ['\n']).flatten
            ++ u) := by
      conv_lhs =>
        rw [← List.take_append_drop (lines.length - n) lines]
      rw [List.map_append, List.flatten_append, List.append_assoc]
    rw [hsplit, ← flatten_term_length (lines.take (lines.length - n)),
      List.drop_left]

/-- C5 witness (amended): the file `"a\nb\nc"` with tail 1 yields
`"b\nc"`. -/
theorem tail_locator_unterminated_witness :
    (([['a'], ['b']].map fun l => l ++ ['\n']).flatten ++ ['c']).drop
        (tail_last_lines_offset
          (([['a'], ['b']].map fun l => l ++ ['\n']).flatten ++ ['c']) 1) =
      (([['a'], ['b']].drop (2 - 1)).map fun l => l ++ ['\n']).flatten
        ++ ['c'] :=
  tail_locator_unterminated [['a'], ['b']] ['c'] 1 (by decide) (by decide)
    (by decide) (by decide) (by decide)

end Logknife
